import Mathlib

/-!
Verification development for a Threes!-variant game framework
(`agent.h`, the shared `argmax` utility in `utils.h`, and the surrounding
components described in the design document).

Numeric model: C++ `float` weight values and candidate values are modelled as
exact rationals (`ℚ`); machine integers are modelled as `ℕ`/`ℤ` with explicit
truncation (`% 2 ^ 32`) where the source performs 32-bit arithmetic.
Randomness (`std::shuffle`, `std::default_random_engine`) is modelled by
universally quantifying over the shuffled output (an arbitrary permutation of
the input).  Components of the repository that are not part of the given
sources (`board.h`, `weight.h`) are modelled from the design document; each
such definition carries a doc comment starting with `Modelled from the spec:`.
-/

namespace Threes

/-! ### The shared argmax utility (utils.h) -/

/-- Helper for `Threes.argmax`: the index scan performed by
`std::min_element` — keeps the first index whose value is strictly smaller
than the current best. -/
def minElemGo (bi : ℕ) (bv : ℚ) (i : ℕ) : List ℚ → ℕ
  | [] => bi
  | x :: xs => if x < bv then minElemGo i x (i + 1) xs else minElemGo bi bv (i + 1) xs

/-- `argmax` from utils.h:
`return std::distance(first, std::min_element(first, last));`
i.e. the offset of the first minimal element (0 on an empty range). -/
def argmax : List ℚ → ℕ
  | [] => 0
  | x :: xs => minElemGo 0 x 1 xs

/-! ### ntuple_slider: feature extraction and table addressing (agent.h) -/

namespace ntuple_slider

/-- The per-pattern packed index of `ntuple_slider::get_weights`:
`uint32_t idx = 0; for (auto& e : enc) idx = (idx << 4) | b(e);`
The shift is 32-bit arithmetic, hence the explicit `% 2 ^ 32`; the board cell
read `b(e)` is an opaque rank-valued function of the position. -/
def packIndex (b : ℕ → ℕ) (enc : List ℕ) : ℕ :=
  enc.foldl (fun idx e => ((idx <<< 4) % 2 ^ 32) ||| b e) 0

/-- The address list built by `ntuple_slider::get_weights`: for pattern
position `i` (loop `for i = 0 .. encodings.size()`), the pair of the selected
table index `i % 2` (from `&net[i % 2][idx]`) and the packed slot index. -/
def get_weights (encodings : List (List ℕ)) (b : ℕ → ℕ) : List (ℕ × ℕ) :=
  (List.range encodings.length).map fun i => (i % 2, packIndex b (encodings.getD i []))

/-! ### ntuple_slider: action selection (agent.h take_action) -/

/-- `std::numeric_limits<float>::lowest()` = −(2 − 2⁻²³)·2¹²⁷
= −(2¹²⁸ − 2¹⁰⁴), as an exact rational (written as a literal so that kernel
evaluation is direct; `lowestFloat_eq` checks the closed form). -/
def lowestFloat : ℚ := -340282346638528859811704183484516925440

/-- The action-selection core of `ntuple_slider::take_action`, parametrised by
the per-direction slide outcome `cands i` (`none` for an illegal slide, i.e.
`board::slide` returned the `-1` sentinel; `some v` for a legal slide with
candidate value `v = reward_fn(reward) + Σ weights of the afterstate`).
The source pushes `lowest()` for an illegal direction, takes
`argmax(rewards.begin(), rewards.end())`, replays the slide at the chosen
direction, and returns the empty action when that slide is illegal. -/
def take_action (cands : Fin 4 → Option ℚ) : Option ℕ :=
  let rewards := (List.finRange 4).map fun i =>
    match cands i with
    | none => lowestFloat
    | some v => v
  let best := argmax rewards
  match (List.finRange 4).get? best with
  | none => none
  | some i =>
    match cands i with
    | none => none
    | some _ => some best

/-! ### ntuple_slider: TD update (agent.h close_episode) -/

/-- One trajectory entry: the weight addresses active at a decision point and
the transformed reward recorded for that step. -/
abbrev Step := List ℕ × ℚ

/-- Pointwise update of a weight store (one `*w += δ` write). -/
def upd (net : ℕ → ℚ) (a : ℕ) (v : ℚ) : ℕ → ℚ :=
  fun x => if x = a then v else net x

/-- One iteration of the reverse loop in `ntuple_slider::close_episode`:
state `(r, next_value, net)`; compute `current_value` as the sum of the
weights at the step's addresses, `loss = r + next_value - current_value`,
then `*w += alpha * loss` for every address occurrence in order, and finally
`r := step reward`, `next_value := current_value`. -/
def tdIter (alpha : ℚ) (st : ℚ × ℚ × (ℕ → ℚ)) (s : Step) : ℚ × ℚ × (ℕ → ℚ) :=
  let r := st.1
  let next_value := st.2.1
  let net := st.2.2
  let current_value := (s.1.map net).sum
  let loss := r + next_value - current_value
  let net' := s.1.foldl (fun n a => upd n a (n a + alpha * loss)) net
  (s.2, current_value, net')

/-- `ntuple_slider::close_episode`: `float r = 0; float next_value = 0;`
then the loop `for (iter = t.rbegin(); iter != t.rend(); ++iter)`
(a left fold over the reversed trajectory), returning the final weight
store. -/
def close_episode (alpha : ℚ) (net : ℕ → ℚ) (t : List Step) : ℕ → ℚ :=
  ((t.reverse).foldl (tdIter alpha) (0, 0, net)).2.2

/-- One TD step as worded by the design document: for a recorded step
(addresses, reward) and incoming `(pending_reward, next_value, net)`, compute
`current_value` = sum of the weights at the addresses, `loss = pending_reward
+ next_value - current_value`, add `learning_rate * loss` to every weight in
the addresses once per occurrence (a weight listed k times moves by k·α·loss),
then pass `(reward, current_value, net')` to the earlier step. -/
def tdIterSpec (alpha : ℚ) (s : Step) (st : ℚ × ℚ × (ℕ → ℚ)) : ℚ × ℚ × (ℕ → ℚ) :=
  let pending_reward := st.1
  let next_value := st.2.1
  let net := st.2.2
  let current_value := (s.1.map net).sum
  let loss := pending_reward + next_value - current_value
  let net' := fun a => net a + alpha * loss * (s.1.count a : ℚ)
  (s.2, current_value, net')

/-- The TD update as worded by the design document: traverse the trajectory in
reverse (most recent step first — a right fold over the chronological list),
starting from `next_value = 0` and `pending_reward = 0`. -/
def close_episodeSpec (alpha : ℚ) (net : ℕ → ℚ) (t : List Step) : ℕ → ℚ :=
  (t.foldr (tdIterSpec alpha) (0, 0, net)).2.2

end ntuple_slider

/-! ### merge_larger_agent (agent.h) -/

namespace merge_larger_agent

def ONETWO_SCORE : ℕ := 5
def SPACE_SCORE : ℕ := 1

/-- The scan loop body of `merge_larger_agent::merge_larger` for one row,
carrying the current pivot and the remaining cells (positions `c = 1..3` of
the row; the source row has 4 cells, the scan generalizes verbatim):
empty cell → record slack and continue; empty pivot → the cell becomes the
pivot; `_row[c] + pivot == 3` → base-pair merge, score `ONETWO_SCORE`, and if
a cell follows it becomes the pivot with the scan advancing past it;
`_row[c] > 2 && pivot > 2 && _row[c] == pivot` → equal-rank merge, score
`pivot`, same advance; otherwise the cell becomes the new pivot.
Returns (score, whether an empty cell was seen). -/
def scanGo (pivot : ℕ) : List ℕ → ℕ × Bool
  | [] => (0, false)
  | c :: rest =>
    if c = 0 then
      ((scanGo pivot rest).1, true)
    else if pivot = 0 then
      scanGo c rest
    else if c + pivot = 3 then
      match rest with
      | [] => (ONETWO_SCORE, false)
      | p :: rest2 =>
        let res := scanGo p rest2
        (ONETWO_SCORE + res.1, res.2)
    else if 2 < c ∧ 2 < pivot ∧ c = pivot then
      match rest with
      | [] => (pivot, false)
      | p :: rest2 =>
        let res := scanGo p rest2
        (pivot + res.1, res.2)
    else
      scanGo c rest

/-- One row of the `merge_larger` scan: `pivot = _row[0]`, then the loop over
`c = 1..3`. -/
def scanRow : List ℕ → ℕ × Bool
  | [] => (0, false)
  | p :: rest => scanGo p rest

/-- `merge_larger_agent::merge_larger` on the (non-transposed) grid: sum the
per-row merge scores; `space` is set to `SPACE_SCORE` (overwritten, not
accumulated) whenever any scanned cell is empty, and added once at the end. -/
def merge_larger (rows : List (List ℕ)) : ℕ :=
  let rs := rows.map scanRow
  (rs.map Prod.fst).sum + (if rs.any Prod.snd then SPACE_SCORE else 0)

/-- The merge-pair predicate as worded by the design document: one tile of
rank 1 and the other of rank 2 (base pair), or both ranks ≥ 3 and equal. -/
def isBasePair (a c : ℕ) : Prop := (a = 1 ∧ c = 2) ∨ (a = 2 ∧ c = 1)

instance : DecidablePred fun p : ℕ × ℕ => isBasePair p.1 p.2 := by
  intro p; unfold isBasePair; infer_instance

instance (a c : ℕ) : Decidable (isBasePair a c) := by
  unfold isBasePair; infer_instance

/-- The row scan as worded by the design document: two non-empty tiles merge
exactly when they are a base pair (rank 1 with rank 2) or both have rank ≥ 3
and equal rank; a base pair contributes the fixed bonus constant, an
equal-rank merge contributes the merged rank; after a merge the consumed
position is skipped (the following cell becomes the pivot); any other pair
does not merge and the later tile becomes the new pivot. -/
def scanSpecGo (pivot : ℕ) : List ℕ → ℕ × Bool
  | [] => (0, false)
  | c :: rest =>
    if c = 0 then
      ((scanSpecGo pivot rest).1, true)
    else if pivot = 0 then
      scanSpecGo c rest
    else if isBasePair pivot c ∨ (3 ≤ pivot ∧ 3 ≤ c ∧ pivot = c) then
      let contrib := if isBasePair pivot c then ONETWO_SCORE else pivot
      match rest with
      | [] => (contrib, false)
      | p :: rest2 =>
        let res := scanSpecGo p rest2
        (contrib + res.1, res.2)
    else
      scanSpecGo c rest

/-- One row of the document-worded scan. -/
def scanRowSpec : List ℕ → ℕ × Bool
  | [] => (0, false)
  | p :: rest => scanSpecGo p rest

/-- The document-worded whole-grid score. -/
def merge_largerSpec (rows : List (List ℕ)) : ℕ :=
  let rs := rows.map scanRowSpec
  (rs.map Prod.fst).sum + (if rs.any Prod.snd then SPACE_SCORE else 0)

end merge_larger_agent

/-! ### random_placer (agent.h) -/

namespace random_placer

/-- Slide directions of the game. -/
inductive Dir : Type
  | LEFT
  | UP
  | RIGHT
  | DOWN
deriving DecidableEq

/-- Modelled from the spec: `board::last()` (board.h is not among the given
sources) — the code of the board's last-performed slide direction, indexing
the edge-position table of the edge that slide just vacated (design document
§4.2: placement is restricted to the newly-vacated edge; §8 fixes that after
a LEFT slide this is the right-edge set {3,7,11,15}), and 4 when no slide has
been performed yet (any of the 16 cells is allowed). -/
def lastCode : Option Dir → ℕ
  | some Dir.UP => 0
  | some Dir.RIGHT => 1
  | some Dir.DOWN => 2
  | some Dir.LEFT => 3
  | none => 4

/-- The `spaces` table initialised in the `random_placer` constructor. -/
def spaces : ℕ → List ℕ
  | 0 => [12, 13, 14, 15]
  | 1 => [0, 4, 8, 12]
  | 2 => [0, 1, 2, 3]
  | 3 => [3, 7, 11, 15]
  | _ => [0, 1, 2, 3, 4, 5, 6, 7, 8, 9, 10, 11, 12, 13, 14, 15]

/-- Modelled from the spec: the board-query interface consumed by
`random_placer::take_action` (board.h is not among the given sources) —
cell read by linear position 0–15 (0 = empty), the last slide direction,
the pending hint tile (0 = none pending), and the remaining bag count of
each base tile rank 1–3. -/
structure PlacerBoard where
  cell : ℕ → ℕ
  last : Option Dir
  hint : ℕ
  bag : ℕ → ℕ

/-- The bag list built inside `random_placer::take_action`:
`for (t = 1; t <= 3; t++) for (i = 0; i < after.bag(t); i++) bag[num++] = t;`. -/
def mkBag (b : PlacerBoard) : List ℕ :=
  List.replicate (b.bag 1) 1 ++ List.replicate (b.bag 2) 2 ++ List.replicate (b.bag 3) 3

/-- `random_placer::take_action`, parametrised by the two shuffle outcomes:
`sp` is the shuffled copy of `spaces[after.last()]` and `shuffledBag` the
shuffled bag list.  The loop takes the first position in `sp` whose cell is
empty; there the tile is the pending hint if any, else the draw `bag[--num]`,
and the new hint is the following draw `bag[--num]`.  If no legal empty
position exists the empty action (`none`) is returned.  (Out-of-range draws
read indeterminate memory in the source; the model returns 0 for them — the
index arithmetic itself is analysed by `bagAccessIndices`.) -/
def take_action (sp : List ℕ) (shuffledBag : List ℕ) (b : PlacerBoard) :
    Option (ℕ × ℕ × ℕ) :=
  match sp.find? (fun p => b.cell p == 0) with
  | none => none
  | some pos =>
    let num := b.bag 1 + b.bag 2 + b.bag 3
    let tile := if b.hint ≠ 0 then b.hint else shuffledBag.getD (num - 1) 0
    let newHint := shuffledBag.getD ((if b.hint ≠ 0 then num else num - 1) - 1) 0
    some (pos, tile, newHint)

/-- The sequence of indices with which `random_placer::take_action` accesses
its local `int bag[3]` array once it reaches an empty legal position, as
integers (a negative index is a read below the array): the writes
`bag[num++] = t` touch `0 .. num-1` where `num = bag(1)+bag(2)+bag(3)`, then
`tile = after.hint() ?: bag[--num]` reads index `num-1` only when no hint is
pending, and `hint = bag[--num]` reads the next lower index. -/
def bagAccessIndices (c1 c2 c3 : ℕ) (hintPending : Bool) : List ℤ :=
  let num : ℤ := (c1 + c2 + c3 : ℕ)
  ((List.range (c1 + c2 + c3)).map fun i : ℕ => (i : ℤ)) ++
    (if hintPending then [num - 1] else [num - 1, num - 2])

end random_placer

/-! ### weight_agent: weight store persistence (agent.h + weight.h) -/

namespace weight_agent

/-- Modelled from the spec: one token of the binary weight file (byte-level
encoding abstracted): either the leading 4-byte unsigned table count or one
numeric weight value (weight.h, which defines the per-table serialization, is
not among the given sources; design document §4.4/§6 fix the layout as the
count followed by each table's fixed-size contents in declaration order). -/
inductive Tok : Type
  | cnt (n : ℕ)
  | val (q : ℚ)
deriving DecidableEq

/-- Modelled from the spec: a table's serialized contents — its fixed-size
array of numeric values, in order. -/
def serializeTable (t : List ℚ) : List Tok :=
  t.map Tok.val

/-- The data written by `weight_agent::save_weights` once the stream is open:
`uint32_t size = net.size();` (truncated to 32 bits) followed by each table's
contents in declaration order. -/
def saveData (net : List (List ℚ)) : List Tok :=
  Tok.cnt (net.length % 2 ^ 32) :: (net.map serializeTable).flatten

/-- Modelled from the spec: reading one table of known declared size from the
token stream (the `in >> w` of `weight_agent::load_weights`): consumes exactly
`n` value tokens. -/
def readTable : ℕ → List Tok → Option (List ℚ × List Tok)
  | 0, s => some ([], s)
  | n + 1, Tok.val q :: s =>
    match readTable n s with
    | none => none
    | some (t, s') => some (q :: t, s')
  | _ + 1, _ => none

/-- Reading the tables of the given declared sizes in order. -/
def readTables : List ℕ → List Tok → Option (List (List ℚ) × List Tok)
  | [], s => some ([], s)
  | n :: ns, s =>
    match readTable n s with
    | none => none
    | some (t, s') =>
      match readTables ns s' with
      | none => none
      | some (ts, s'') => some (t :: ts, s'')

/-- The data read by `weight_agent::load_weights` once the stream is open,
into a fresh store whose declared table sizes are `sizes`: read the leading
count `n`, `net.resize(n)` (keeping the first `n` declared sizes and
default-constructing empty tables beyond them), then read each table's
contents in order.  Returns `none` when the stream does not parse. -/
def loadData (sizes : List ℕ) : List Tok → Option (List (List ℚ))
  | Tok.cnt n :: rest =>
    let sizes' := sizes.take n ++ List.replicate (n - sizes.length) 0
    match readTables sizes' rest with
    | none => none
    | some (ts, _) => some ts
  | _ => none

/-- Outcome of an operation that may terminate the process:
either a value or `std::exit(code)`. -/
inductive ProcOut (α : Type) : Type
  | ok (a : α)
  | exited (code : ℤ)
deriving DecidableEq

/-- `weight_agent::load_weights` over an abstract read filesystem
(`fs path = none` models a stream that fails to open):
`if (!in.is_open()) std::exit(-1);` then the reads of `loadData`. -/
def load_weights (fs : String → Option (List Tok)) (sizes : List ℕ) (path : String) :
    ProcOut (Option (List (List ℚ))) :=
  match fs path with
  | none => ProcOut.exited (-1)
  | some f => ProcOut.ok (loadData sizes f)

/-- `weight_agent::save_weights` over an abstract writability predicate:
`if (!out.is_open()) std::exit(-1);` then the writes of `saveData`
(the result carries the written stream). -/
def save_weights (canOpen : String → Bool) (net : List (List ℚ)) (path : String) :
    ProcOut (List Tok) :=
  if canOpen path then ProcOut.ok (saveData net) else ProcOut.exited (-1)

end weight_agent

end Threes

namespace Threes

/-! ## Theorems -/

/-- Claim C1 (code, at the failing input): the shared `argmax` utility, applied
to the candidate range `[0, 1]`, returns index 0 — whose element is strictly
smaller than the element at index 1 — so it locates a minimum-valued element,
not a maximum-valued one as the claim states.  (`argmax` is implemented as
`std::distance(first, std::min_element(first, last))`.) -/
theorem C1_argmax_returns_minimum :
    Threes.argmax [(0 : ℚ), 1] = 0 ∧
      [(0 : ℚ), 1].getD (Threes.argmax [(0 : ℚ), 1]) 0 < [(0 : ℚ), 1].getD 1 0 := by
  decide

/-- Claim C2 (code, at the failing input): with direction 0 legal (candidate
value 0) and directions 1–3 illegal, `ntuple_slider::take_action` returns the
empty action even though a legal slide exists — the min-finding `argmax`
selects the `lowest()` sentinel of an illegal direction, the replayed slide
fails, and the empty action is returned; the claim says a legal slide action
is returned whenever at least one direction is legal. -/
theorem C2_take_action_no_action_despite_legal :
    ntuple_slider.take_action (fun i => if i.val = 0 then some 0 else none) = none ∧
      (fun i : Fin 4 => if i.val = 0 then some (0 : ℚ) else none) 0 = some 0 := by
  decide

/-- Claim C3 (counterexample): with a weight store of `table_count = 3` tables
and three configured patterns, the pattern at position 2 addresses table
`2 % 2 = 0`, not table `2 % 3 = 2` as the claim's
`pattern_index mod table_count` rule demands — the source hardcodes
`net[i % 2]`. -/
theorem C3_not_mod_table_count :
    ((ntuple_slider.get_weights [[0], [0], [0]] (fun _ => 0)).getD 2 (9, 9)).1 ≠ 2 % 3 := by
  decide

/-- Claim C3 (amended): for every configured pattern list and every board,
`ntuple_slider::get_weights` addresses, for the pattern at position `i`, the
weight table at index `i % 2` (index parity), independently of the number of
tables in the store; this coincides with `i mod table_count` exactly when
`i % 2 = i % table_count` (in particular when `table_count = 2`). -/
theorem C3_table_index_parity :
    ∀ (encodings : List (List ℕ)) (b : ℕ → ℕ) (i : ℕ), i < encodings.length →
      ((ntuple_slider.get_weights encodings b).getD i (0, 0)).1 = i % 2 := by
  intro encodings b i h
  unfold ntuple_slider.get_weights
  rw [List.getD_eq_getElem?_getD, List.getElem?_map, List.getElem?_range h]
  rfl

/-- Witness for `C3_table_index_parity` at two patterns, pattern position 1. -/
theorem C3_table_index_parity_witness :
    1 < ([[0], [1]] : List (List ℕ)).length ∧
      ((ntuple_slider.get_weights [[0], [1]] (fun _ => 0)).getD 1 (0, 0)).1 = 1 % 2 :=
  ⟨by decide, C3_table_index_parity [[0], [1]] (fun _ => 0) 1 (by decide)⟩

/-- Claim C10 (counterexample): with remaining bag counts (5, 5, 5) and no
pending hint the claim's precondition (counts sum to at least 2) holds, yet
the recorded accesses leave the bounds of a 12-element array (index 14 is
written) — and a fortiori the bounds of the actual 3-element `int bag[3]`
declared in the source. -/
theorem C10_bag_overflow :
    2 ≤ 5 + 5 + 5 ∧
      ¬ (∀ i ∈ random_placer.bagAccessIndices 5 5 5 false, 0 ≤ i ∧ i < 12) ∧
      ¬ (∀ i ∈ random_placer.bagAccessIndices 5 5 5 false, 0 ≤ i ∧ i < 3) := by
  decide

/-- Claim C10 (amended): the local bag array has 3 elements (`int bag[3]`);
all of its accesses are in bounds provided the remaining bag counts for ranks
1–3 sum to at most 3 and to at least 2 when no hint tile is pending (at least
1 when one is pending); with a smaller bag the draws `bag[--num]` read below
index 0. -/
theorem C10_bag_access_bounds :
    ∀ (c1 c2 c3 : ℕ) (hp : Bool), c1 + c2 + c3 ≤ 3 →
      ((if hp then 1 else 2) ≤ c1 + c2 + c3 →
        ∀ i ∈ random_placer.bagAccessIndices c1 c2 c3 hp, 0 ≤ i ∧ i < 3) ∧
      (c1 + c2 + c3 < (if hp then 1 else 2) →
        ∃ i ∈ random_placer.bagAccessIndices c1 c2 c3 hp, i < 0) := by
  intro c1 c2 c3 hp hle
  constructor
  · intro hge i hi
    cases hp with
    | true =>
      simp only [random_placer.bagAccessIndices, List.mem_append, List.mem_map,
        List.mem_range, if_true, List.mem_singleton] at hi
      simp only [if_true] at hge
      rcases hi with ⟨j, hj, rfl⟩ | rfl <;> omega
    | false =>
      simp only [random_placer.bagAccessIndices, List.mem_append, List.mem_map,
        List.mem_range, Bool.false_eq_true, if_false, List.mem_cons,
        List.mem_singleton] at hi
      simp only [Bool.false_eq_true, if_false] at hge
      rcases hi with ⟨j, hj, rfl⟩ | rfl | rfl | h
      · omega
      · omega
      · omega
      · exact absurd h (List.not_mem_nil _)
  · intro hlt
    cases hp with
    | true =>
      simp only [if_true] at hlt
      refine ⟨((c1 + c2 + c3 : ℕ) : ℤ) - 1, ?_, by omega⟩
      simp [random_placer.bagAccessIndices]
    | false =>
      simp only [Bool.false_eq_true, if_false] at hlt
      refine ⟨((c1 + c2 + c3 : ℕ) : ℤ) - 2, ?_, by omega⟩
      simp [random_placer.bagAccessIndices]

/-- Witness for `C10_bag_access_bounds` at counts (1, 1, 1) with no pending
hint. -/
theorem C10_bag_access_bounds_witness :
    1 + 1 + 1 ≤ 3 ∧ 2 ≤ 1 + 1 + 1 ∧
      (∀ i ∈ random_placer.bagAccessIndices 1 1 1 false, 0 ≤ i ∧ i < 3) :=
  ⟨by decide, by decide,
    (C10_bag_access_bounds 1 1 1 false (by decide)).1 (by decide)⟩

/-- The literal in `lowestFloat` is `-(2^128 - 2^104)`. -/
theorem lowestFloat_eq : ntuple_slider.lowestFloat = -(2 ^ 128 - 2 ^ 104) := by
  norm_num [ntuple_slider.lowestFloat]

/-- A left fold of pointwise `+ c` updates over an address list moves each
weight by `c` once per occurrence of its address. -/
theorem updFold_count (c : ℚ) :
    ∀ (addrs : List ℕ) (net : ℕ → ℚ),
      addrs.foldl (fun n a => ntuple_slider.upd n a (n a + c)) net
        = fun x => net x + c * (addrs.count x : ℚ) := by
  intro addrs
  induction addrs with
  | nil =>
    intro net
    funext x
    simp
  | cons a as ih =>
    intro net
    rw [List.foldl_cons, ih]
    funext x
    simp only [ntuple_slider.upd, List.count_cons]
    by_cases hx : x = a
    · subst hx
      simp only [if_pos rfl, beq_self_eq_true, if_true]
      push_cast
      ring
    · have : ¬ (a == x) = true := by
        simpa using fun h => hx h.symm
      simp only [if_neg hx, this, if_false]
      push_cast
      ring

/-- One iteration of the source loop agrees with one document-worded TD
step. -/
theorem tdIter_eq_tdIterSpec (alpha : ℚ) (s : ntuple_slider.Step)
    (st : ℚ × ℚ × (ℕ → ℚ)) :
    ntuple_slider.tdIter alpha st s = ntuple_slider.tdIterSpec alpha s st := by
  unfold ntuple_slider.tdIter ntuple_slider.tdIterSpec
  simp only
  rw [updFold_count]

/-- Claim C4: `ntuple_slider::close_episode` computes exactly the
document-worded TD update — traverse the trajectory in reverse (most recent
step first) from `next_value = 0`, `pending_reward = 0`; per step take
`current_value` as the sum of the weights at the step's addresses,
`loss = pending_reward + next_value - current_value`, add
`learning_rate · loss` to every weight once per address occurrence, then carry
`next_value := current_value` and `pending_reward :=` the step's recorded
reward to the earlier step. -/
theorem C4_close_episode_td :
    ∀ (alpha : ℚ) (net : ℕ → ℚ) (t : List ntuple_slider.Step),
      ntuple_slider.close_episode alpha net t
        = ntuple_slider.close_episodeSpec alpha net t := by
  intro alpha net t
  unfold ntuple_slider.close_episode ntuple_slider.close_episodeSpec
  rw [List.foldl_reverse]
  have h : t.foldr (fun x y => ntuple_slider.tdIter alpha y x) (0, 0, net)
      = t.foldr (ntuple_slider.tdIterSpec alpha) (0, 0, net) := by
    induction t with
    | nil => rfl
    | cons s ts ih => rw [List.foldr_cons, List.foldr_cons, ih, tdIter_eq_tdIterSpec]
  rw [h]

/-- The source row scan of `merge_larger` agrees with the document-worded
scan, for every pivot and cell list. -/
theorem scanGo_eq_spec :
    ∀ (pivot : ℕ) (l : List ℕ),
      merge_larger_agent.scanGo pivot l = merge_larger_agent.scanSpecGo pivot l := by
  intro pivot l
  induction pivot, l using merge_larger_agent.scanGo.induct with
  | case1 pivot => rfl
  | case2 pivot rest2 ih =>
    rw [merge_larger_agent.scanGo.eq_def, merge_larger_agent.scanSpecGo.eq_def]
    simp [ih]
  | case3 p rest2 hp ih =>
    rw [merge_larger_agent.scanGo.eq_def, merge_larger_agent.scanSpecGo.eq_def]
    simp [hp, ih]
  | case4 pivot p hp hpv hsum =>
    have hbase : merge_larger_agent.isBasePair pivot p := by
      unfold merge_larger_agent.isBasePair; omega
    rw [merge_larger_agent.scanGo.eq_def, merge_larger_agent.scanSpecGo.eq_def]
    simp [hp, hpv, hsum, hbase]
  | case5 pivot p hp hpv hsum p1 rest2 ih =>
    have hbase : merge_larger_agent.isBasePair pivot p := by
      unfold merge_larger_agent.isBasePair; omega
    rw [merge_larger_agent.scanGo.eq_def, merge_larger_agent.scanSpecGo.eq_def]
    simp [hp, hpv, hsum, hbase, ih]
  | case6 pivot p hp hpv hsum heq =>
    obtain ⟨hcp, hcpv, rfl⟩ := heq
    have hnb : ¬ merge_larger_agent.isBasePair p p := by
      unfold merge_larger_agent.isBasePair; omega
    have h3 : 3 ≤ p := hcp
    rw [merge_larger_agent.scanGo.eq_def, merge_larger_agent.scanSpecGo.eq_def]
    simp [hp, hsum, hnb, h3, hcp]
  | case7 pivot p hp hpv hsum heq p1 rest2 ih =>
    obtain ⟨hcp, hcpv, rfl⟩ := heq
    have hnb : ¬ merge_larger_agent.isBasePair p p := by
      unfold merge_larger_agent.isBasePair; omega
    have h3 : 3 ≤ p := hcp
    rw [merge_larger_agent.scanGo.eq_def, merge_larger_agent.scanSpecGo.eq_def]
    simp [hp, hsum, hnb, h3, hcp, ih]
  | case8 pivot p rest2 hp hpv hsum heq ih =>
    have hnb : ¬ (merge_larger_agent.isBasePair pivot p ∨
        (3 ≤ pivot ∧ 3 ≤ p ∧ pivot = p)) := by
      unfold merge_larger_agent.isBasePair; omega
    rw [merge_larger_agent.scanGo.eq_def, merge_larger_agent.scanSpecGo.eq_def]
    simp [hp, hpv, hsum, heq, hnb, ih]

/-- Row-level agreement of the two scans. -/
theorem scanRow_eq_spec :
    ∀ row, merge_larger_agent.scanRow row = merge_larger_agent.scanRowSpec row := by
  intro row
  cases row with
  | nil => rfl
  | cons p rest => exact scanGo_eq_spec p rest

/-- A shifted-or step with a nibble-sized operand is an addition. -/
theorem or16 (a y : ℕ) (h : y < 16) : (16 * a) ||| y = 16 * a + y := by
  have h4 : y < 2 ^ 4 := by norm_num at h ⊢; exact h
  have h2 := Nat.mul_add_lt_is_or h4 a
  norm_num at h2
  exact h2.symm

/-- The fold of `ntuple_slider::get_weights` from a general accumulator:
as long as the packed result stays below 2³², the 32-bit truncation is
inert and each step appends one base-16 digit. -/
theorem packIndex_aux (b : ℕ → ℕ) :
    ∀ (enc : List ℕ) (a : ℕ), (∀ e ∈ enc, b e < 16) →
      (a + 1) * 16 ^ enc.length ≤ 2 ^ 32 →
      enc.foldl (fun idx e => ((idx <<< 4) % 2 ^ 32) ||| b e) a
        = a * 16 ^ enc.length + Nat.ofDigits 16 ((enc.map b).reverse) := by
  intro enc
  induction enc with
  | nil =>
    intro a _ _
    simp [Nat.ofDigits]
  | cons e rest ih =>
    intro a hlt hbound
    have hbe : b e < 16 := hlt e (List.mem_cons_self e rest)
    have hb16 : (a + 1) * 16 ≤ 2 ^ 32 := by
      have h1 : (a + 1) * 16 ≤ (a + 1) * 16 ^ (rest.length + 1) := by
        apply Nat.mul_le_mul_left
        calc (16 : ℕ) = 16 ^ 1 := by norm_num
          _ ≤ 16 ^ (rest.length + 1) := Nat.pow_le_pow_right (by norm_num) (by omega)
      calc (a + 1) * 16 ≤ (a + 1) * 16 ^ (rest.length + 1) := h1
        _ ≤ 2 ^ 32 := by simpa using hbound
    have hmod : (a <<< 4) % 2 ^ 32 = 16 * a := by
      rw [Nat.shiftLeft_eq]
      have h16 : a * 2 ^ 4 = 16 * a := by ring
      rw [h16]
      exact Nat.mod_eq_of_lt (by omega)
    rw [List.foldl_cons, hmod, or16 a (b e) hbe]
    rw [ih (16 * a + b e) (fun x hx => hlt x (List.mem_cons_of_mem _ hx)) ?_]
    · rw [List.map_cons, List.reverse_cons, Nat.ofDigits_append]
      simp [Nat.ofDigits]
      ring
    · calc (16 * a + b e + 1) * 16 ^ rest.length
          ≤ ((a + 1) * 16) * 16 ^ rest.length := by
            apply Nat.mul_le_mul_right
            omega
        _ = (a + 1) * 16 ^ (rest.length + 1) := by ring
        _ ≤ 2 ^ 32 := by simpa using hbound

/-- Claim C9: for every board (cell-rank function with ranks 0–15) and every
pattern of at most 8 cell positions, the per-pattern index computed by
`ntuple_slider::get_weights` is the packing of the pattern cells' ranks
most-significant-first at 4 bits per cell — the first pattern cell occupies
the highest-order nibble (stated via `Nat.ofDigits 16` on the reversed rank
list).  The embedded computation is a pure function of the board: it reads
cells and mutates nothing. -/
theorem C9_pack_index_msb :
    ∀ (b : ℕ → ℕ) (enc : List ℕ), enc.length ≤ 8 → (∀ e ∈ enc, b e < 16) →
      ntuple_slider.packIndex b enc = Nat.ofDigits 16 ((enc.map b).reverse) := by
  intro b enc hlen hrank
  unfold ntuple_slider.packIndex
  rw [packIndex_aux b enc 0 hrank ?_]
  · simp
  · have h : (16 : ℕ) ^ enc.length ≤ 16 ^ 8 := Nat.pow_le_pow_right (by norm_num) hlen
    simpa using le_trans h (by norm_num)

/-- Witness for `C9_pack_index_msb` at the pattern `[0, 1, 2]` on the board
whose rank at position `p` is `p % 16`. -/
theorem C9_pack_index_msb_witness :
    ([0, 1, 2] : List ℕ).length ≤ 8 ∧
      (∀ e ∈ ([0, 1, 2] : List ℕ), (fun p => p % 16) e < 16) ∧
      ntuple_slider.packIndex (fun p => p % 16) [0, 1, 2]
        = Nat.ofDigits 16 (([0, 1, 2].map (fun p => p % 16)).reverse) :=
  ⟨by decide, by decide,
    C9_pack_index_msb (fun p => p % 16) [0, 1, 2] (by decide) (by decide)⟩

/-- Claim C8: the left-to-right pivot scan of
`merge_larger_agent::merge_larger` scores two non-empty tiles as a merge
exactly when they are a base pair (one rank 1, the other rank 2) or both have
rank ≥ 3 and equal rank; a base pair contributes the fixed bonus constant
`ONETWO_SCORE`, an equal-rank merge contributes the merged rank, after a merge
the consumed position is skipped (the following cell becomes the pivot), and
any other pair does not merge (the later tile becomes the new pivot) — stated
as the equality of the source scan with the document-worded scan on every
grid. -/
theorem C8_merge_scan :
    ∀ rows : List (List ℕ),
      merge_larger_agent.merge_larger rows = merge_larger_agent.merge_largerSpec rows := by
  intro rows
  unfold merge_larger_agent.merge_larger merge_larger_agent.merge_largerSpec
  have h : rows.map merge_larger_agent.scanRow = rows.map merge_larger_agent.scanRowSpec := by
    induction rows with
    | nil => rfl
    | cons r rs ih => rw [List.map_cons, List.map_cons, ih, scanRow_eq_spec r]
  rw [h]

/-- Claim C5: for every board whose last-performed slide is LEFT and every
shuffle outcome (an arbitrary permutation `sp` of the selected edge-position
set), `random_placer::take_action` either returns a placement whose position
lies in the right-edge set {3, 7, 11, 15} and refers to an empty cell, or —
when every cell of that set is occupied — returns the empty action (so no
placement in that set, or anywhere, is returned). -/
theorem C5_left_edge :
    ∀ (b : random_placer.PlacerBoard) (sp bagL : List ℕ),
      b.last = some random_placer.Dir.LEFT →
      sp.Perm (random_placer.spaces (random_placer.lastCode b.last)) →
      (∀ pos tile h2, random_placer.take_action sp bagL b = some (pos, tile, h2) →
          pos ∈ random_placer.spaces 3 ∧ b.cell pos = 0) ∧
      (random_placer.take_action sp bagL b = none →
          ∀ p ∈ random_placer.spaces 3, b.cell p ≠ 0) := by
  intro b sp bagL hlast hperm
  rw [hlast] at hperm
  have hperm3 : sp.Perm (random_placer.spaces 3) := hperm
  constructor
  · intro pos tile h2 hres
    unfold random_placer.take_action at hres
    cases hfind : sp.find? (fun p => b.cell p == 0) with
    | none => rw [hfind] at hres; exact absurd hres (by simp)
    | some q =>
      rw [hfind] at hres
      have hq0 : b.cell q = 0 := by
        have h := List.find?_some hfind
        simpa using h
      have hqmem : q ∈ sp := List.mem_of_find?_eq_some hfind
      have hpos : pos = q := by
        simp only [Option.some_inj] at hres
        exact (congrArg Prod.fst hres.symm)
      subst hpos
      exact ⟨hperm3.mem_iff.mp hqmem, hq0⟩
  · intro hres p hp
    unfold random_placer.take_action at hres
    cases hfind : sp.find? (fun p => b.cell p == 0) with
    | some q => rw [hfind] at hres; exact absurd hres (by simp)
    | none =>
      have h := List.find?_eq_none.mp hfind p (hperm3.mem_iff.mpr hp)
      simpa using h

/-- Witness for `C5_left_edge` on a board whose only empty right-edge cell is
position 3, with a pending hint tile 1 and one of each bag rank. -/
theorem C5_left_edge_witness :
    3 ∈ random_placer.spaces 3 ∧
      (random_placer.PlacerBoard.mk (fun p => if p = 3 then 0 else 1)
          (some random_placer.Dir.LEFT) 1 (fun _ => 1)).cell 3 = 0 :=
  (C5_left_edge
      (random_placer.PlacerBoard.mk (fun p => if p = 3 then 0 else 1)
        (some random_placer.Dir.LEFT) 1 (fun _ => 1))
      (random_placer.spaces 3) [1, 2, 3] rfl (List.Perm.refl _)).1 3 1 3 (by decide)

/-- Reading back one serialized table of its own length consumes exactly its
contents. -/
theorem readTable_serialize (t : List ℚ) (s : List weight_agent.Tok) :
    weight_agent.readTable t.length (weight_agent.serializeTable t ++ s) = some (t, s) := by
  induction t with
  | nil => simp [weight_agent.serializeTable, weight_agent.readTable]
  | cons q qs ih =>
    simp only [weight_agent.serializeTable, List.map_cons, List.cons_append,
      List.length_cons]
    simp only [weight_agent.readTable]
    have ih' : weight_agent.readTable qs.length (weight_agent.serializeTable qs ++ s)
        = some (qs, s) := ih
    simp only [weight_agent.serializeTable] at ih'
    rw [ih']

/-- Reading back all serialized tables by their declared lengths recovers the
store. -/
theorem readTables_serialize (net : List (List ℚ)) (s : List weight_agent.Tok) :
    weight_agent.readTables (net.map List.length)
        ((net.map weight_agent.serializeTable).flatten ++ s) = some (net, s) := by
  induction net generalizing s with
  | nil => simp [weight_agent.readTables]
  | cons t ts ih =>
    simp only [List.map_cons, List.flatten_cons, List.append_assoc,
      weight_agent.readTables, readTable_serialize, ih]

/-- The save/load round trip on the serialized data. -/
theorem load_save_roundtrip (net : List (List ℚ)) (h : net.length < 2 ^ 32) :
    weight_agent.loadData (net.map List.length) (weight_agent.saveData net) = some net := by
  have hcnt : net.length % 2 ^ 32 = net.length := Nat.mod_eq_of_lt h
  have hlen : (net.map List.length).length = net.length := List.length_map _ _
  have htake : (net.map List.length).take net.length = net.map List.length := by
    rw [← hlen, List.take_length]
  have hread := readTables_serialize net []
  rw [List.append_nil] at hread
  simp only [weight_agent.saveData, weight_agent.loadData, hcnt, hlen, Nat.sub_self,
    List.replicate, htake, List.append_nil, hread]

/-- Claim C6: saving a weight store with `save_weights` and loading the saved
data with `load_weights` into a fresh store of matching declared sizes yields
the same store — the same number of tables with element-wise equal contents
for every table and every slot. -/
theorem C6_save_load_roundtrip :
    ∀ net : List (List ℚ), net.length < 2 ^ 32 →
      weight_agent.loadData (net.map List.length) (weight_agent.saveData net) = some net :=
  fun net h => load_save_roundtrip net h

/-- Witness for `C6_save_load_roundtrip` on the two-table store
`[[1, 2], [3]]`. -/
theorem C6_save_load_roundtrip_witness :
    ([[1, 2], [3]] : List (List ℚ)).length < 2 ^ 32 ∧
      weight_agent.loadData ([[1, 2], [3]].map List.length)
          (weight_agent.saveData ([[1, 2], [3]] : List (List ℚ)))
        = some ([[1, 2], [3]] : List (List ℚ)) :=
  ⟨by norm_num, C6_save_load_roundtrip [[1, 2], [3]] (by norm_num)⟩

/-- Claim C7: a path that cannot be opened makes `load_weights` (resp.
`save_weights`) terminate the process (`std::exit(-1)`) rather than return a
store; when the file does open, the layout written is the 4-byte unsigned
table count (the store size truncated to 32 bits) followed by each table's
contents in declaration order, and reading that layout back recovers the
store. -/
theorem C7_fatal_io_and_layout :
    ∀ (fs : String → Option (List weight_agent.Tok)) (canOpen : String → Bool)
      (sizes : List ℕ) (net : List (List ℚ)) (path : String),
      (fs path = none →
        weight_agent.load_weights fs sizes path = weight_agent.ProcOut.exited (-1)) ∧
      (canOpen path = false →
        weight_agent.save_weights canOpen net path = weight_agent.ProcOut.exited (-1)) ∧
      (canOpen path = true →
        weight_agent.save_weights canOpen net path =
          weight_agent.ProcOut.ok (weight_agent.Tok.cnt (net.length % 2 ^ 32) ::
            (net.map weight_agent.serializeTable).flatten)) ∧
      (net.length < 2 ^ 32 → fs path = some (weight_agent.saveData net) →
        weight_agent.load_weights fs (net.map List.length) path =
          weight_agent.ProcOut.ok (some net)) := by
  intro fs canOpen sizes net path
  refine ⟨?_, ?_, ?_, ?_⟩
  · intro h
    unfold weight_agent.load_weights
    rw [h]
  · intro h
    unfold weight_agent.save_weights
    rw [h]
    simp
  · intro h
    unfold weight_agent.save_weights
    rw [h]
    simp [weight_agent.saveData]
  · intro hlt h
    unfold weight_agent.load_weights
    rw [h]
    show weight_agent.ProcOut.ok
        (weight_agent.loadData (net.map List.length) (weight_agent.saveData net)) = _
    rw [load_save_roundtrip net hlt]

/-- Witness for `C7_fatal_io_and_layout`: a filesystem where nothing opens
(both operations exit), and one where the path holds a saved one-table
store (the layout is written and read back). -/
theorem C7_fatal_io_and_layout_witness :
    weight_agent.load_weights (fun _ => none) [] "w" = weight_agent.ProcOut.exited (-1) ∧
      weight_agent.save_weights (fun _ => false) [[1]] "w" = weight_agent.ProcOut.exited (-1) ∧
      weight_agent.save_weights (fun _ => true) [[1]] "w" =
        weight_agent.ProcOut.ok (weight_agent.Tok.cnt (([[1]] : List (List ℚ)).length % 2 ^ 32) ::
          (([[1]] : List (List ℚ)).map weight_agent.serializeTable).flatten) ∧
      weight_agent.load_weights (fun _ => some (weight_agent.saveData [[1]]))
          (([[1]] : List (List ℚ)).map List.length) "w" =
        weight_agent.ProcOut.ok (some ([[1]] : List (List ℚ))) :=
  ⟨(C7_fatal_io_and_layout (fun _ => none) (fun _ => false) [] [[1]] "w").1 rfl,
    (C7_fatal_io_and_layout (fun _ => none) (fun _ => false) [] [[1]] "w").2.1 rfl,
    (C7_fatal_io_and_layout (fun _ => none) (fun _ => true) [] [[1]] "w").2.2.1 rfl,
    (C7_fatal_io_and_layout (fun _ => some (weight_agent.saveData [[1]])) (fun _ => true)
        [] [[1]] "w").2.2.2 (by norm_num) rfl⟩

end Threes
